import Mathlib

/-!
Verification of the content-extraction pipeline of `epub2pdf.py`.

The source file is a single Python module, `src/epub2pdf.py`.  The shallow
embedding below translates its pure content logic into Lean:

* strings are modelled as `Str := List Char` (Python `str`);
* Python `dict` objects are modelled as association lists (`Dict`) with
  insert-or-overwrite-in-place semantics, matching Python insertion order;
* byte strings are modelled as `List Nat` (each entry one byte);
* fallible calls into the external ebook library are modelled with `Option`;
* Python `str.lower` is modelled on the basic-latin range by the core
  `Char.toLower` (the filenames and table keys involved are ASCII).
-/

set_option maxRecDepth 4000

abbrev Str : Type := List Char

abbrev Dict (κ ν : Type) : Type := List (κ × ν)

/-- Python `d[k] = v`: overwrite in place if the key exists, else append. -/
def dictInsert [DecidableEq κ] : Dict κ ν → κ → ν → Dict κ ν
  | [], k, v => [(k, v)]
  | (k', v') :: d, k, v => if k' = k then (k, v) :: d else (k', v') :: dictInsert d k v

/-- Python `d.get(k)` / `k in d`: first (unique) binding of the key. -/
def dictLookup [DecidableEq κ] : Dict κ ν → κ → Option ν
  | [], _ => none
  | (k', v') :: d, k => if k' = k then some v' else dictLookup d k

/-- Python `s.split(sep)` for a single-character separator (never returns `[]`,
keeps empty segments, `"".split(sep) = [""]`). -/
def splitOnChar (sep : Char) : Str → List Str
  | [] => [[]]
  | c :: cs =>
    match splitOnChar sep cs with
    | [] => [[c]]
    | g :: gs => if c = sep then [] :: g :: gs else (c :: g) :: gs

/-- The fixed extension table of `_get_image_mime_type` (lines 381-389). -/
def mimeTable : Dict Str Str :=
  [("jpg".data, "image/jpeg".data), ("jpeg".data, "image/jpeg".data),
   ("png".data, "image/png".data), ("gif".data, "image/gif".data),
   ("bmp".data, "image/bmp".data), ("svg".data, "image/svg+xml".data),
   ("webp".data, "image/webp".data)]

/-- `_get_image_mime_type` (lines 378-390): lowercase the whole filename, take the
text after the last `'.'`, look it up, defaulting to `image/jpeg`. -/
def getImageMimeType (filename : Str) : Str :=
  let ext := (splitOnChar '.' (filename.map Char.toLower)).getLastD []
  (dictLookup mimeTable ext).getD "image/jpeg".data

/-- MimeResolver exactly as the spec words it: take the text after the last `'.'`,
lowercase *that extension*, look it up in the fixed table, default `image/jpeg`.
Always returns a value (total function). -/
def mimeResolverSpec (filename : Str) : Str :=
  let ext := ((splitOnChar '.' filename).getLastD []).map Char.toLower
  (dictLookup mimeTable ext).getD "image/jpeg".data

/-- Python `s.split('/')[-1]` (the final path segment). -/
def basenameOf (s : Str) : Str := (splitOnChar '/' s).getLastD []

def base64Alphabet : Str :=
  "ABCDEFGHIJKLMNOPQRSTUVWXYZabcdefghijklmnopqrstuvwxyz0123456789+/".data

/-- Standard base64 of a byte sequence (`base64.b64encode`), with `=` padding. -/
def base64Encode : List Nat → Str
  | [] => []
  | [a] =>
    [base64Alphabet.getD (a / 4) 'A', base64Alphabet.getD (a % 4 * 16) 'A', '=', '=']
  | [a, b] =>
    [base64Alphabet.getD (a / 4) 'A', base64Alphabet.getD (a % 4 * 16 + b / 16) 'A',
     base64Alphabet.getD (b % 16 * 4) 'A', '=']
  | a :: b :: c :: rest =>
    [base64Alphabet.getD (a / 4) 'A', base64Alphabet.getD (a % 4 * 16 + b / 16) 'A',
     base64Alphabet.getD (b % 16 * 4 + c / 64) 'A', base64Alphabet.getD (c % 64) 'A']
    ++ base64Encode rest

inductive ItemKind where
  | document
  | image
  | other
deriving DecidableEq

/-- A resource item of the parsed package: `item.get_name()`, `item.get_type()`,
`item.get_content()` (content as raw bytes, one `Nat` per byte). -/
structure EpubItem where
  name : Str
  kind : ItemKind
  content : List Nat
deriving DecidableEq

def maxImages : Nat := 500

def maxImageSize : Nat := 5 * 1024 * 1024

/-- The `data:{mime};base64,{payload}` URL built at lines 357-358. -/
def imageDataUrl (it : EpubItem) : Str :=
  "data:".data ++ getImageMimeType it.name ++ ";base64,".data ++ base64Encode it.content

/-- Lines 360-364: register the data URL under the declared path and, when
different, additionally under its basename. -/
def registerImage (images : Dict Str Str) (it : EpubItem) : Dict Str Str :=
  let url := imageDataUrl it
  let base := basenameOf it.name
  let images' := dictInsert images it.name url
  if base ≠ it.name then dictInsert images' base url else images'

/-- The loop of `extract_images_from_epub` (lines 337-370): walk the items,
consider only images, break once 500 images were accepted, skip any image
larger than 5 MiB, otherwise register it under up to two keys.
(The per-item `try`/`except` of lines 343-370 has no failing operation left in
this pure model; the external `get_content` is modelled as always returning.) -/
def extractImagesLoop : List EpubItem → Dict Str Str → Nat → Dict Str Str
  | [], images, _ => images
  | it :: rest, images, count =>
    if it.kind = ItemKind.image then
      if count ≥ maxImages then images
      else if it.content.length > maxImageSize then extractImagesLoop rest images count
      else extractImagesLoop rest (registerImage images it) (count + 1)
    else extractImagesLoop rest images count

/-- `extract_images_from_epub` (lines 321-376). -/
def extractImagesFromEpub (items : List EpubItem) : Dict Str Str :=
  extractImagesLoop items [] 0

/-- Case-insensitive prefix test over the basic-latin range, matching how
`re.IGNORECASE` treats the ASCII literals used in the source's patterns. -/
def ciIsPrefixOf : Str → Str → Bool
  | [], _ => true
  | _ :: _, [] => false
  | a :: as, b :: bs => (Char.toLower a == Char.toLower b) && ciIsPrefixOf as bs

/-- Worker for `subLiteral`, structurally recursive on a fuel that the caller
sets to the input length: every step consumes at least one character, so the
fuel-exhausted case is unreachable. -/
def subLiteralFuel (ci : Bool) (pat repl : Str) : Nat → Str → Str
  | _, [] => []
  | 0, s => s
  | fuel + 1, c :: cs =>
    if pat ≠ [] ∧ (if ci then ciIsPrefixOf pat (c :: cs) else pat.isPrefixOf (c :: cs)) then
      repl ++ subLiteralFuel ci pat repl fuel ((c :: cs).drop pat.length)
    else c :: subLiteralFuel ci pat repl fuel cs

/-- Python `str.replace(pat, repl)` (and `re.sub` with a literal pattern when
`ci` is true, i.e. under `re.IGNORECASE`): replace every left-to-right
non-overlapping occurrence of `pat` by `repl`. -/
def subLiteral (ci : Bool) (pat repl : Str) (s : Str) : Str :=
  subLiteralFuel ci pat repl s.length s

/-- One `re.sub(prefix ++ [^>]* ++ close, '', s)` pass as used for the
`<?xml[^>]*\?>`, `<!DOCTYPE[^>]*>` and `<html[^>]*>` patterns: at each position
where `p` matches (case-insensitively when `ci`), the pattern matches up to the
first following `'>'`; when `needQ` the character just before that `'>'` must be
`'?'` (the `\?>` tail).  Matches are removed, scanning resumes after them. -/
def removeDeclsFuel (ci needQ : Bool) (p : Str) : Nat → Str → Str
  | _, [] => []
  | 0, s => s
  | fuel + 1, c :: cs =>
    if p ≠ [] ∧ (if ci then ciIsPrefixOf p (c :: cs) else p.isPrefixOf (c :: cs)) then
      let w := ((c :: cs).drop p.length).takeWhile (fun ch => ch != '>')
      if w.length < ((c :: cs).drop p.length).length ∧
          (needQ = false ∨ w.getLast? = some '?') then
        removeDeclsFuel ci needQ p fuel ((c :: cs).drop (p.length + w.length + 1))
      else c :: removeDeclsFuel ci needQ p fuel cs
    else c :: removeDeclsFuel ci needQ p fuel cs

def removeDecls (ci needQ : Bool) (p : Str) (s : Str) : Str :=
  removeDeclsFuel ci needQ p s.length s

/-- Split at the first case-insensitive occurrence of `pat`: the part strictly
before it and the part strictly after it. -/
def splitAtCI (pat : Str) : Str → Option (Str × Str)
  | [] => if pat = [] then some ([], []) else none
  | c :: cs =>
    if ciIsPrefixOf pat (c :: cs) then some ([], (c :: cs).drop pat.length)
    else
      match splitAtCI pat cs with
      | some (b, a) => some (c :: b, a)
      | none => none

/-- `re.search(r'<body[^>]*>(.*?)</body>', content, DOTALL | IGNORECASE)`
(line 234): at the leftmost position where `<body` matches case-insensitively,
a `'>'` follows, and a case-insensitive `</body>` occurs after it, return the
text between that `'>'` and that `</body>` (the regex group). -/
def searchBody : Str → Option Str
  | [] => none
  | c :: cs =>
    if ciIsPrefixOf "<body".data (c :: cs) then
      let w := ((c :: cs).drop 5).takeWhile (fun ch => ch != '>')
      if w.length < ((c :: cs).drop 5).length then
        match splitAtCI "</body>".data ((c :: cs).drop (5 + w.length + 1)) with
        | some (inner, _) => some inner
        | none => searchBody cs
      else searchBody cs
    else searchBody cs

/-- `re.sub(r'<head[^>]*>.*?</head>', '', content, DOTALL | IGNORECASE)`
(line 241): remove every complete head block wholesale, contents included,
non-overlapping, left to right. -/
def removeHeadBlocksFuel : Nat → Str → Str
  | _, [] => []
  | 0, s => s
  | fuel + 1, c :: cs =>
    if ciIsPrefixOf "<head".data (c :: cs) then
      let w := ((c :: cs).drop 5).takeWhile (fun ch => ch != '>')
      if w.length < ((c :: cs).drop 5).length then
        match splitAtCI "</head>".data ((c :: cs).drop (5 + w.length + 1)) with
        | some (_, after) => removeHeadBlocksFuel fuel after
        | none => c :: removeHeadBlocksFuel fuel cs
      else c :: removeHeadBlocksFuel fuel cs
    else c :: removeHeadBlocksFuel fuel cs

def removeHeadBlocks (s : Str) : Str :=
  removeHeadBlocksFuel s.length s

/-- `_clean_html_content` (lines 219-243), exactly as the source sequences it:
remove `<?xml...?>` declarations (case-sensitively), remove `<!DOCTYPE...>`
declarations (case-sensitively), then return the first `<body...>...</body>`
group if one exists, else strip `<html...>` tags, `</html>` tags and whole
`<head...>...</head>` blocks (these three case-insensitively).  Total on all
inputs: malformed input is tolerated, never rejected. -/
def cleanHtmlContent (content : Str) : Str :=
  let c2 := removeDecls false false "<!DOCTYPE".data
    (removeDecls false true "<?xml".data content)
  match searchBody c2 with
  | some inner => inner
  | none =>
    removeHeadBlocks (subLiteral true "</html>".data []
      (removeDecls true false "<html".data c2))

/-- FragmentSanitizer as the spec words it, with the case-sensitivity of the
prolog/doctype removal as a parameter: when `ciDecls` is true they are removed
case-insensitively (the claim's wording), when false case-sensitively. -/
def sanitizerSpec (ciDecls : Bool) (content : Str) : Str :=
  let c2 := removeDecls ciDecls false "<!DOCTYPE".data
    (removeDecls ciDecls true "<?xml".data content)
  match searchBody c2 with
  | some inner => inner
  | none =>
    removeHeadBlocks (subLiteral true "</html>".data []
      (removeDecls true false "<html".data c2))

/-- Python `list(dict.fromkeys(l))`: deduplicate keeping first occurrences. -/
def dedupFirstAux [DecidableEq α] (seen : List α) : List α → List α
  | [] => []
  | x :: xs =>
    if x ∈ seen then dedupFirstAux seen xs else x :: dedupFirstAux (seen ++ [x]) xs

def dedupFirst [DecidableEq α] (l : List α) : List α := dedupFirstAux [] l

/-- The `possible_keys` list of `replace_img_src` (lines 272-289), exactly as
the source builds it: the eight fixed variants (`str.replace` removes *every*
occurrence, `lstrip` removes *all* leading slashes), then the basename again
when not already present (it always is, at index 1), then `dict.fromkeys`
deduplication and the `[:10]` cap. -/
def possibleKeys (src : Str) : List Str :=
  let base := basenameOf src
  let keys : List Str :=
    [src, base,
     subLiteral false "../".data [] src,
     subLiteral false "./".data [] src,
     src.dropWhile (fun ch => ch == '/'),
     subLiteral false "images/".data [] src,
     subLiteral false "Images/".data [] src,
     subLiteral false "IMAGES/".data [] src]
  let keys2 := if base ∈ keys then keys else keys ++ [base]
  (dedupFirst keys2).take 10

/-- Remove `pat` only when it is a leading segment of `s` (the claim's reading
of "with leading `...` removed"). -/
def dropLeadingLiteral (pat : Str) (s : Str) : Str :=
  if pat.isPrefixOf s then s.drop pat.length else s

/-- Remove a single leading `'/'` (the claim's "a single leading '/' removed"). -/
def dropOneLeadingSlash (s : Str) : Str :=
  match s with
  | [] => []
  | c :: cs => if c = '/' then cs else c :: cs

/-- The candidate list exactly as claim C3 words it: raw reference, basename,
`../` segments removed, *leading* `./` removed, a *single* leading `'/'`
removed, *leading* `images/` directory removed in three case variants, then
the basename again if absent; deduplicated preserving order, capped at 10. -/
def claimCandidates (src : Str) : List Str :=
  let base := basenameOf src
  let keys : List Str :=
    [src, base,
     subLiteral false "../".data [] src,
     dropLeadingLiteral "./".data src,
     dropOneLeadingSlash src,
     dropLeadingLiteral "images/".data src,
     dropLeadingLiteral "Images/".data src,
     dropLeadingLiteral "IMAGES/".data src]
  let keys2 := if base ∈ keys then keys else keys ++ [base]
  (dedupFirst keys2).take 10

/-- The candidate list as amended: same shape as the claim's, but variants
(d), (e), (f) remove *every* `./` occurrence, *all* leading slashes, and
*every* occurrence of the `images/` / `Images/` / `IMAGES/` directory name,
exactly as Python `str.replace` / `str.lstrip` do. -/
def specCandidates (src : Str) : List Str :=
  let base := basenameOf src
  let keys : List Str :=
    [src, base,
     subLiteral false "../".data [] src,
     subLiteral false "./".data [] src,
     src.dropWhile (fun ch => ch == '/'),
     subLiteral false "images/".data [] src,
     subLiteral false "Images/".data [] src,
     subLiteral false "IMAGES/".data [] src]
  let keys2 := if base ∈ keys then keys else keys ++ [base]
  (dedupFirst keys2).take 10

/-- The candidate search loop (lines 292-293): the first candidate that is
non-empty (`if key`) and present in the map (`key in images`) wins. -/
def findImageKey (images : Dict Str Str) (src : Str) : Option Str :=
  (possibleKeys src).find? (fun k => !k.isEmpty && (dictLookup images k).isSome)

/-- A fragment is modelled as the alternation the `img_pattern` regex (line
260) induces on it: plain text interleaved with `<img ...>` tags carrying a
single quoted `src` attribute.  `img pre q src post` renders as
`<img` ++ pre ++ `src=` ++ q ++ src ++ q ++ post ++ `>`. -/
inductive Piece where
  | text (s : Str)
  | img (pre : Str) (q : Char) (src : Str) (post : Str)
deriving DecidableEq

def renderPiece : Piece → Str
  | Piece.text s => s
  | Piece.img pre q src post =>
    "<img".data ++ pre ++ "src=".data ++ [q] ++ src ++ [q] ++ post ++ ">".data

def renderFragment (frag : List Piece) : Str := frag.flatMap renderPiece

/-- The body of `replace_img_src` (lines 262-310) on one matched tag: keep
`data:` references untouched; otherwise try the candidate keys in order and
substitute the `src` attribute (requoted with `"`, the value's `"` escaped to
`&quot;`) with the first mapped data URL, or with `"#"` when no candidate is in
the map.  Total: the per-tag `except` (lines 308-310) has no raising operation
left in this pure model. -/
def replaceImgSrcPiece (images : Dict Str Str) : Piece → Piece
  | Piece.text s => Piece.text s
  | Piece.img pre q src post =>
    if "data:".data.isPrefixOf src then Piece.img pre q src post
    else
      match findImageKey images src with
      | some k =>
        Piece.img pre '"'
          (subLiteral false "\"".data "&quot;".data ((dictLookup images k).getD [])) post
      | none => Piece.img pre '"' "#".data post

/-- `_replace_image_references` (lines 245-319): return the content unchanged
when the map is empty (line 256), else rewrite every matched tag.  The
`RecursionError` fallback of lines 316-319 is unreachable in this pure model. -/
def replaceImageReferences (images : Dict Str Str) (content : List Piece) : List Piece :=
  if images.isEmpty then content else content.map (replaceImgSrcPiece images)

/-- A document-kind resource item as the assembly loop sees it: its id
(`doc.get_id()`) and its markup content, already in the fragment
representation; `none` models `item.get_content()` (or the subsequent
processing) raising for that item. -/
structure DocItem (ι : Type) where
  id : ι
  content : Option (List Piece)
deriving DecidableEq

/-- Lines 189-191: `spine_order[item_id] = index` over `enumerate(book.spine)`
(a later duplicate id overwrites an earlier index, as in a Python dict). -/
def dictOfSpineAux [DecidableEq ι] (i : Nat) : List ι → Dict ι Nat → Dict ι Nat
  | [], m => m
  | x :: xs, m => dictOfSpineAux (i + 1) xs (dictInsert m x i)

def dictOfSpine [DecidableEq ι] (spine : List ι) : Dict ι Nat :=
  dictOfSpineAux 0 spine []

/-- `spine_order.get(doc.get_id(), 999)` (line 194). -/
def spineKey [DecidableEq ι] (spine : List ι) (id : ι) : Nat :=
  (dictLookup (dictOfSpine spine) id).getD 999

/-- The index of the last occurrence of `id` (what the overwriting dict build
records), `none` when absent. -/
def lastIdxOf [DecidableEq ι] (id : ι) : List ι → Option Nat
  | [] => none
  | x :: xs =>
    match lastIdxOf id xs with
    | some j => some (j + 1)
    | none => if x = id then some 0 else none

/-- Stable insertion by `Nat` key: a new element goes before the first strictly
later-keyed element and after all earlier-or-equally-keyed ones. -/
def insBefore (key : α → Nat) (x : α) : List α → List α
  | [] => [x]
  | y :: ys => if key x ≤ key y then x :: y :: ys else y :: insBefore key x ys

/-- Stable sort by a `Nat` key (`list.sort(key=...)` — Python's sort is
documented stable; a stable sort by key is extensionally unique, so insertion
sort is a faithful model). -/
def stableSortByKey (key : α → Nat) (l : List α) : List α :=
  l.foldr (insBefore key) []

/-- Lines 187-194: documents are sorted by spine rank only when a non-empty
spine is present, with rank 999 for documents absent from the spine. -/
def sortDocuments [DecidableEq ι] (spine : List ι) (docs : List (DocItem ι)) :
    List (DocItem ι) :=
  if spine = [] then docs
  else stableSortByKey (fun d => spineKey spine d.id) docs

/-- Concatenation of the key-`i` group, the key-`i+1` group, ..., the
key-`i+fuel-1` group, each group in encounter order. -/
def groupedByKey (key : α → Nat) : Nat → Nat → List α → List α
  | _, 0, _ => []
  | i, fuel + 1, l =>
    l.filter (fun x => key x == i) ++ groupedByKey key (i + 1) fuel l

/-- The declared-rank groups of the spec's ordering: documents of rank `i`,
then rank `i+1`, ..., each group in encounter order. -/
def groupedRanks [DecidableEq ι] (spine : List ι) (docs : List (DocItem ι)) :
    Nat → Nat → List (DocItem ι)
  | _, 0 => []
  | i, fuel + 1 =>
    docs.filter (fun d => lastIdxOf d.id spine == some i)
    ++ groupedRanks spine docs (i + 1) fuel

/-- The ordering claim C1 states: documents present in the declared order
first, sorted by their (last-occurrence) rank, then all absent documents in
their original encounter order. -/
def orderedBySpineSpec [DecidableEq ι] (spine : List ι) (docs : List (DocItem ι)) :
    List (DocItem ι) :=
  groupedRanks spine docs 0 spine.length
  ++ docs.filter (fun d => decide (lastIdxOf d.id spine = none))

/-- The assembly loop of `extract_epub_content` (lines 197-206): each item's
content is decoded and rewritten and appended; an item whose retrieval or
decoding raises (`content = none`) is skipped with a log line and assembly
continues (`except ... continue`).  Total function: a bad fragment can never
abort the whole conversion. -/
def assembleFragments [DecidableEq ι] (images : Dict Str Str)
    (docs : List (DocItem ι)) : List Piece :=
  docs.foldl
    (fun acc d =>
      match d.content with
      | some frag => acc ++ replaceImageReferences images frag
      | none => acc)
    []

/-- The per-file filesystem state the orchestrator consults: the input's
modification time and, when the output file exists, its modification time. -/
structure FileState where
  epubMtime : Nat
  pdf : Option Nat
deriving DecidableEq

/-- `is_already_converted` (lines 90-106): true iff the output exists and its
mtime is `≥` the input's mtime. -/
def isAlreadyConverted (st : FileState) : Bool :=
  match st.pdf with
  | some m => st.epubMtime ≤ m
  | none => false

inductive ConvResult where
  | success
  | failed
  | skipped
deriving DecidableEq

/-- One file's pass through `convert_all` (lines 455-462) together with
`convert_epub_to_pdf` (lines 392-438): skip when already converted; otherwise
assemble and render — on success (`renderOk`) the output file is written with
the current time `now` as its mtime, on failure nothing is written. -/
def runConversion (renderOk : Bool) (now : Nat) (st : FileState) : ConvResult × FileState :=
  if isAlreadyConverted st then (ConvResult.skipped, st)
  else if renderOk then (ConvResult.success, ⟨st.epubMtime, some now⟩)
  else (ConvResult.failed, st)

structure RunSummary where
  total : Nat
  success : Nat
  failed : Nat
  skipped : Nat
deriving DecidableEq

def bumpSummary (acc : RunSummary) : ConvResult → RunSummary
  | ConvResult.success => ⟨acc.total, acc.success + 1, acc.failed, acc.skipped⟩
  | ConvResult.failed => ⟨acc.total, acc.success, acc.failed + 1, acc.skipped⟩
  | ConvResult.skipped => ⟨acc.total, acc.success, acc.failed, acc.skipped + 1⟩

/-- `convert_all` (lines 440-470): an empty enumeration returns all-zero
counters; otherwise start from `{total: len(files), 0, 0, 0}` and let each
file increment exactly one outcome counter. -/
def convertAll (files : List (FileState × Bool × Nat)) : RunSummary :=
  if files = [] then ⟨0, 0, 0, 0⟩
  else
    files.foldl
      (fun acc f => bumpSummary acc (runConversion f.2.1 f.2.2 f.1).1)
      ⟨files.length, 0, 0, 0⟩

/-- The name of the `i`-th image in the counterexample package: `a/bb...b`
with `i` letters `b`. -/
def famName (i : Nat) : Str := 'a' :: '/' :: List.replicate i 'b'

/-- `n` image items named `famName s`, `famName (s+1)`, ..., each with empty
content (well under the size ceiling). -/
def famItems : Nat → Nat → List EpubItem
  | _, 0 => []
  | s, n + 1 => EpubItem.mk (famName s) ItemKind.image [] :: famItems (s + 1) n

/-- A concrete package with 251 distinct images: the accepted count stays below
the 500 cap, but each image registers two distinct keys. -/
def manyImageItems : List EpubItem := famItems 0 251

theorem dictInsert_length_le [DecidableEq κ] (d : Dict κ ν) (k : κ) (v : ν) :
    (dictInsert d k v).length ≤ d.length + 1 := by
  induction d with
  | nil => simp [dictInsert]
  | cons p d ih =>
    obtain ⟨k', v'⟩ := p
    by_cases h : k' = k
    · simp [dictInsert, h]
    · simp only [dictInsert, if_neg h, List.length_cons]
      omega

theorem mem_dictInsert [DecidableEq κ] (p : κ × ν) (d : Dict κ ν) (k : κ) (v : ν)
    (h : p ∈ dictInsert d k v) : p ∈ d ∨ p = (k, v) := by
  induction d with
  | nil => simp [dictInsert] at h; simp [h]
  | cons q d ih =>
    obtain ⟨k', v'⟩ := q
    by_cases hk : k' = k
    · simp [dictInsert, hk] at h
      rcases h with h | h
      · right; simp [h]
      · left; simp [h]
    · simp [dictInsert, hk] at h
      rcases h with h | h
      · left; simp [h]
      · rcases ih h with h' | h'
        · left; simp [h']
        · right; exact h'

theorem dictLookup_dictInsert_self [DecidableEq κ] (d : Dict κ ν) (k : κ) (v : ν) :
    dictLookup (dictInsert d k v) k = some v := by
  induction d with
  | nil => simp [dictInsert, dictLookup]
  | cons q d ih =>
    obtain ⟨k', v'⟩ := q
    by_cases hk : k' = k <;> simp [dictInsert, dictLookup, hk, ih]

theorem dictLookup_dictInsert_ne [DecidableEq κ] (d : Dict κ ν) (k k' : κ) (v : ν)
    (h : k ≠ k') : dictLookup (dictInsert d k v) k' = dictLookup d k' := by
  induction d with
  | nil => simp [dictInsert, dictLookup, h]
  | cons q d ih =>
    obtain ⟨k'', v''⟩ := q
    by_cases hk : k'' = k <;> simp [dictInsert, dictLookup, hk, h, ih]

theorem splitOnChar_ne_nil (sep : Char) (l : Str) : splitOnChar sep l ≠ [] := by
  cases l with
  | nil => simp [splitOnChar]
  | cons c cs =>
    simp only [splitOnChar]
    rcases h : splitOnChar sep cs with _ | ⟨g, gs⟩
    · simp
    · by_cases hc : c = sep <;> simp [hc]

theorem toNat_charOfNat_valid {n : Nat} (h : n.isValidChar) : (Char.ofNat n).toNat = n := by
  rw [Char.ofNat, dif_pos h]
  rfl

/-- `Char.toLower` fixes `'.'` and maps nothing else to `'.'`
(it only moves basic-latin capitals into `[97, 122]`). -/
theorem toLower_eq_dot_iff (c : Char) : (Char.toLower c = '.') ↔ (c = '.') := by
  constructor
  · intro h
    by_cases hrange : c.toNat ≥ 65 ∧ c.toNat ≤ 90
    · exfalso
      have h2 : Char.ofNat (c.toNat + 32) = '.' := by
        simpa [Char.toLower, hrange] using h
      have hv : (Char.ofNat (c.toNat + 32)).toNat = c.toNat + 32 :=
        toNat_charOfNat_valid (Or.inl (by omega))
      have hdot := congrArg Char.toNat h2
      rw [hv] at hdot
      have : ('.' : Char).toNat = 46 := by decide
      omega
    · simpa [Char.toLower, hrange] using h
  · intro h
    subst h
    decide

theorem splitOnChar_dot_map_toLower (l : Str) :
    splitOnChar '.' (l.map Char.toLower) = (splitOnChar '.' l).map (List.map Char.toLower) := by
  induction l with
  | nil => simp [splitOnChar]
  | cons c cs ih =>
    simp only [List.map_cons, splitOnChar, ih]
    rcases h : splitOnChar '.' cs with _ | ⟨g, gs⟩
    · exact absurd h (splitOnChar_ne_nil '.' cs)
    · by_cases hc : c = '.'
      · simp [hc, (toLower_eq_dot_iff c).mpr hc]
      · have : ¬ (Char.toLower c = '.') := fun hh => hc ((toLower_eq_dot_iff c).mp hh)
        simp [hc, this]

theorem getLastD_map_toLower (l : List Str) :
    (l.map (List.map Char.toLower)).getLastD [] = List.map Char.toLower (l.getLastD []) := by
  induction l with
  | nil => simp
  | cons g gs ih =>
    cases gs with
    | nil => simp
    | cons g' gs' => simpa using ih

theorem dictLookup_eq_none_iff [DecidableEq κ] (d : Dict κ ν) (k : κ) :
    dictLookup d k = none ↔ ∀ p ∈ d, p.1 ≠ k := by
  induction d with
  | nil => simp [dictLookup]
  | cons q d ih =>
    obtain ⟨k', v'⟩ := q
    by_cases hk : k' = k <;> simp [dictLookup, hk, ih]

theorem dictInsert_length_fresh [DecidableEq κ] (d : Dict κ ν) (k : κ) (v : ν)
    (h : dictLookup d k = none) : (dictInsert d k v).length = d.length + 1 := by
  induction d with
  | nil => simp [dictInsert]
  | cons q d ih =>
    obtain ⟨k', v'⟩ := q
    by_cases hk : k' = k
    · simp [dictLookup, hk] at h
    · simp [dictLookup, hk] at h
      simp [dictInsert, hk, ih h]

theorem find_first_congr (p q : α → Bool) (l : List α) (h : ∀ a ∈ l, p a = q a) :
    l.find? p = l.find? q := by
  induction l with
  | nil => rfl
  | cons x xs ih =>
    have hx := h x (by simp)
    simp only [List.find?]
    rw [← hx]
    cases p x <;> simp [ih fun a ha => h a (by simp [ha])]

/-- C7: for every filename, the content-type resolver lowercases the extension
(the text after the last `'.'`), looks it up in the fixed table
jpg/jpeg/png/gif/bmp/svg/webp, defaults to `image/jpeg` for unknown or missing
extensions, and always returns a value (both sides are total functions; the
source lowercases the whole name first, which agrees with lowercasing the
extension because `'.'` is fixed by lowercasing). -/
theorem mime_resolver_matches_spec (filename : Str) :
    getImageMimeType filename = mimeResolverSpec filename := by
  unfold getImageMimeType mimeResolverSpec
  rw [splitOnChar_dot_map_toLower, getLastD_map_toLower]

/-- C6 counterexample: the claim says prolog and doctype declarations are
removed case-insensitively, but `_clean_html_content` compiles both patterns
without `re.IGNORECASE`: a lowercase `<!doctype html>` declaration survives,
while the claim's case-insensitive sanitizer removes it. -/
theorem sanitizer_counterexample :
    cleanHtmlContent "<!doctype html><p>a</p>".data ≠
      sanitizerSpec true "<!doctype html><p>a</p>".data := by decide

/-- C6 amended: the sanitizer removes XML prolog and doctype declarations
case-SENSITIVELY (matching only the literal `<?xml` and `<!DOCTYPE` spellings);
when a complete body element is present it returns only the body's inner
content; otherwise it removes the outer document-wrapper tags and whole head
sections case-insensitively while keeping everything else.  Both sides are
total functions, so no input is rejected. -/
theorem sanitizer_matches_spec (content : Str) :
    cleanHtmlContent content = sanitizerSpec false content := rfl

/-- C9: with an empty ImageMap the reference rewriter returns the fragment
unchanged (line 256 `if not images: return content`), even when the fragment
contains image tags that match nothing — no placeholder substitution happens. -/
theorem rewrite_empty_map_identity (content : List Piece) :
    replaceImageReferences [] content = content := rfl

/-- C3 counterexample: at the reference `a/./b.png` the source's candidate
list contains `a/b.png` (Python `str.replace` removes *every* `./`
occurrence), while the claim's list — which only removes a *leading* `./` —
does not, so the two lists differ. -/
theorem candidate_list_counterexample :
    possibleKeys "a/./b.png".data ≠ claimCandidates "a/./b.png".data := by decide

/-- C3 amended: the candidate keys are tried in exactly the stated precedence
— raw reference, basename, all `../` occurrences removed, all `./` occurrences
removed, all leading slashes removed, every `images/` / `Images/` / `IMAGES/`
occurrence removed, then the basename again if absent — deduplicated
preserving order, capped at 10; and (provided the empty string is not a map
key, which the loop's `if key` guard would otherwise skip) the first candidate
found in the map wins. -/
theorem candidate_list_amended (src : Str) (images : Dict Str Str)
    (hempty : dictLookup images [] = none) :
    possibleKeys src = specCandidates src ∧
    findImageKey images src =
      (specCandidates src).find? (fun k => (dictLookup images k).isSome) := by
  refine ⟨rfl, ?_⟩
  unfold findImageKey
  have hpk : possibleKeys src = specCandidates src := rfl
  rw [hpk]
  apply find_first_congr
  intro k _
  cases k with
  | nil => simp [List.isEmpty, hempty]
  | cons c cs => simp [List.isEmpty]

theorem candidate_list_amended_witness :
    dictLookup [("x.png".data, "u".data)] ([] : Str) = none ∧
    (possibleKeys "images/x.png".data = specCandidates "images/x.png".data ∧
     findImageKey [("x.png".data, "u".data)] "images/x.png".data =
       (specCandidates "images/x.png".data).find?
         (fun k => (dictLookup [("x.png".data, "u".data)] k).isSome)) :=
  ⟨by decide, candidate_list_amended "images/x.png".data [("x.png".data, "u".data)] (by decide)⟩

/-- C4 counterexample: the claim's universal placeholder substitution fails
when the ImageMap is empty — here the reference `x.png` matches none of its
candidate variants (the map has no keys at all), yet `_replace_image_references`
returns the fragment unchanged via the `if not images` early return instead of
substituting `#`. -/
theorem placeholder_counterexample :
    replaceImageReferences [] [Piece.img " ".data '"' "x.png".data []] =
      [Piece.img " ".data '"' "x.png".data []] ∧
    Piece.img " ".data '"' "x.png".data [] ≠ Piece.img " ".data '"' "#".data [] := by
  exact ⟨rfl, by decide⟩

/-- C4 amended: provided the ImageMap is non-empty and the tag's reference is
not already an inline `data:` reference, a tag whose reference matches none of
the candidate variants has its reference attribute substituted with the
placeholder `#`; the rewriter is a total function, so no exception can
propagate to the caller. -/
theorem placeholder_on_no_match (images : Dict Str Str) (content : List Piece)
    (pre : Str) (q : Char) (src post : Str) (i : Nat)
    (hne : images ≠ [])
    (hdata : "data:".data.isPrefixOf src = false)
    (hnomatch : ∀ k ∈ possibleKeys src, dictLookup images k = none)
    (hi : content[i]? = some (Piece.img pre q src post)) :
    (replaceImageReferences images content)[i]? =
      some (Piece.img pre '"' "#".data post) := by
  have hfind : findImageKey images src = none := by
    unfold findImageKey
    apply List.find?_eq_none.mpr
    intro k hk
    simp [hnomatch k hk]
  have hemp : images.isEmpty = false := by
    cases images with
    | nil => exact absurd rfl hne
    | cons p d => rfl
  unfold replaceImageReferences
  rw [hemp]
  simp [List.getElem?_map, hi, replaceImgSrcPiece, hdata, hfind]

theorem placeholder_on_no_match_witness :
    ([("k".data, "v".data)] : Dict Str Str) ≠ [] ∧
    "data:".data.isPrefixOf "x.png".data = false ∧
    (∀ k ∈ possibleKeys "x.png".data, dictLookup [("k".data, "v".data)] k = none) ∧
    [Piece.text "t".data, Piece.img " ".data '"' "x.png".data "/".data][1]? =
      some (Piece.img " ".data '"' "x.png".data "/".data) ∧
    (replaceImageReferences [("k".data, "v".data)]
        [Piece.text "t".data, Piece.img " ".data '"' "x.png".data "/".data])[1]? =
      some (Piece.img " ".data '"' "#".data "/".data) :=
  ⟨by decide, by decide, by decide, by decide,
   placeholder_on_no_match [("k".data, "v".data)]
     [Piece.text "t".data, Piece.img " ".data '"' "x.png".data "/".data]
     " ".data '"' "x.png".data "/".data 1 (by decide) (by decide) (by decide) (by decide)⟩

/-- C5: a document item whose retrieval or decoding raises (`content = none`)
is omitted entirely from the assembled output and assembly of the remaining
fragments continues unchanged; `assembleFragments` is total, so a bad fragment
can never fail the whole conversion. -/
theorem bad_fragment_skipped [DecidableEq ι] (images : Dict Str Str)
    (pre post : List (DocItem ι)) (bad : DocItem ι) (h : bad.content = none) :
    assembleFragments images (pre ++ bad :: post) =
      assembleFragments images (pre ++ post) := by
  unfold assembleFragments
  rw [List.foldl_append, List.foldl_append, List.foldl_cons, h]

theorem bad_fragment_skipped_witness :
    (DocItem.mk 2 none : DocItem Nat).content = none ∧
    assembleFragments [] [DocItem.mk 1 (some [Piece.text "A".data]),
        DocItem.mk 2 none, DocItem.mk 3 (some [Piece.text "B".data])] =
      assembleFragments [] [DocItem.mk 1 (some [Piece.text "A".data]),
        DocItem.mk 3 (some [Piece.text "B".data])] :=
  ⟨rfl, bad_fragment_skipped [] [DocItem.mk 1 (some [Piece.text "A".data])]
    [DocItem.mk 3 (some [Piece.text "B".data])] (DocItem.mk 2 none) rfl⟩

/-- C8: a file's conversion is reported skipped iff the output file exists with
a modification time `≥` the input's; consequently (when the clock at write time
is not before the input's mtime) a second run after a successful conversion is
reported skipped and leaves the output state — including its timestamp —
untouched. -/
theorem skip_iff_fresh_output (st : FileState) (r r2 : Bool) (now now2 : Nat)
    (h : st.epubMtime ≤ now) :
    ((runConversion r now st).1 = ConvResult.skipped ↔
      ∃ m, st.pdf = some m ∧ st.epubMtime ≤ m) ∧
    (r = true →
      (runConversion r2 now2 (runConversion r now st).2).1 = ConvResult.skipped ∧
      (runConversion r2 now2 (runConversion r now st).2).2 = (runConversion r now st).2) := by
  obtain ⟨e, pdf⟩ := st
  cases pdf with
  | none =>
    simp only [runConversion, isAlreadyConverted]
    constructor
    · cases r <;> simp
    · intro hr
      subst hr
      simp only [Bool.false_eq_true, if_false, if_true]
      have : (e ≤ now : Prop) := h
      simp [isAlreadyConverted, this, decide_eq_true_eq]
  | some m =>
    by_cases hm : e ≤ m
    · simp [runConversion, isAlreadyConverted, hm]
    · simp only [runConversion, isAlreadyConverted]
      rw [if_neg (by simpa using hm)]
      constructor
      · cases r <;> simp [hm]
      · intro hr
        subst hr
        simp [isAlreadyConverted, h]

theorem skip_iff_fresh_output_witness :
    (5 : Nat) ≤ 7 ∧
    (((runConversion true 7 ⟨5, none⟩).1 = ConvResult.skipped ↔
       ∃ m, (⟨5, none⟩ : FileState).pdf = some m ∧ (⟨5, none⟩ : FileState).epubMtime ≤ m) ∧
     (true = true →
       (runConversion false 9 (runConversion true 7 ⟨5, none⟩).2).1 = ConvResult.skipped ∧
       (runConversion false 9 (runConversion true 7 ⟨5, none⟩).2).2 =
         (runConversion true 7 ⟨5, none⟩).2)) :=
  ⟨by decide, skip_iff_fresh_output ⟨5, none⟩ true false 7 9 (by decide)⟩

theorem convertAll_fold_counters (files : List (FileState × Bool × Nat)) (acc : RunSummary) :
    (files.foldl (fun a f => bumpSummary a (runConversion f.2.1 f.2.2 f.1).1) acc).success
      + (files.foldl (fun a f => bumpSummary a (runConversion f.2.1 f.2.2 f.1).1) acc).failed
      + (files.foldl (fun a f => bumpSummary a (runConversion f.2.1 f.2.2 f.1).1) acc).skipped
      = acc.success + acc.failed + acc.skipped + files.length ∧
    (files.foldl (fun a f => bumpSummary a (runConversion f.2.1 f.2.2 f.1).1) acc).total
      = acc.total := by
  induction files generalizing acc with
  | nil => simp
  | cons f fs ih =>
    simp only [List.foldl_cons, List.length_cons]
    have step := ih (bumpSummary acc (runConversion f.2.1 f.2.2 f.1).1)
    rcases step with ⟨hsum, htot⟩
    refine ⟨?_, ?_⟩
    · rw [hsum]
      cases (runConversion f.2.1 f.2.2 f.1).1 <;> simp [bumpSummary] <;> omega
    · rw [htot]
      cases (runConversion f.2.1 f.2.2 f.1).1 <;> simp [bumpSummary]

/-- C10: in every batch run the summary counters satisfy
`success + failed + skipped = total`: each enumerated file increments exactly
one outcome counter and `total` is fixed to the number of files up front. -/
theorem counters_partition_total (files : List (FileState × Bool × Nat)) :
    (convertAll files).success + (convertAll files).failed + (convertAll files).skipped
      = (convertAll files).total := by
  unfold convertAll
  by_cases hf : files = []
  · simp [hf]
  · rw [if_neg hf]
    rcases convertAll_fold_counters files ⟨files.length, 0, 0, 0⟩ with ⟨hsum, htot⟩
    rw [hsum, htot]
    simp

theorem registerImage_length_le (images : Dict Str Str) (it : EpubItem) :
    (registerImage images it).length ≤ images.length + 2 := by
  unfold registerImage
  by_cases hb : basenameOf it.name ≠ it.name
  · rw [if_pos hb]
    have h1 := dictInsert_length_le images it.name (imageDataUrl it)
    have h2 := dictInsert_length_le (dictInsert images it.name (imageDataUrl it))
      (basenameOf it.name) (imageDataUrl it)
    omega
  · rw [if_neg hb]
    have h1 := dictInsert_length_le images it.name (imageDataUrl it)
    omega

theorem mem_registerImage (p : Str × Str) (images : Dict Str Str) (it : EpubItem)
    (h : p ∈ registerImage images it) :
    p ∈ images ∨ p = (it.name, imageDataUrl it) ∨ p = (basenameOf it.name, imageDataUrl it) := by
  unfold registerImage at h
  by_cases hb : basenameOf it.name ≠ it.name
  · rw [if_pos hb] at h
    rcases mem_dictInsert _ _ _ _ h with h' | h'
    · rcases mem_dictInsert _ _ _ _ h' with h'' | h''
      · exact Or.inl h''
      · exact Or.inr (Or.inl h'')
    · exact Or.inr (Or.inr h')
  · rw [if_neg hb] at h
    rcases mem_dictInsert _ _ _ _ h with h' | h'
    · exact Or.inl h'
    · exact Or.inr (Or.inl h')

theorem extractImagesLoop_length (items : List EpubItem) (images : Dict Str Str)
    (count : Nat) (hlen : images.length ≤ 2 * count) (hcount : count ≤ maxImages) :
    (extractImagesLoop items images count).length ≤ 2 * maxImages := by
  induction items generalizing images count with
  | nil =>
    simp only [extractImagesLoop]
    omega
  | cons it rest ih =>
    simp only [extractImagesLoop]
    by_cases hk : it.kind = ItemKind.image
    · rw [if_pos hk]
      by_cases hc : count ≥ maxImages
      · rw [if_pos hc]
        omega
      · rw [if_neg hc]
        by_cases hs : it.content.length > maxImageSize
        · rw [if_pos hs]
          exact ih images count hlen hcount
        · rw [if_neg hs]
          apply ih
          · have := registerImage_length_le images it
            omega
          · omega
    · rw [if_neg hk]
      exact ih images count hlen hcount

theorem extractImagesLoop_mem (items : List EpubItem) (images : Dict Str Str)
    (count : Nat) (p : Str × Str) (hp : p ∈ extractImagesLoop items images count) :
    p ∈ images ∨ ∃ it, it ∈ items ∧ it.kind = ItemKind.image ∧
      it.content.length ≤ maxImageSize ∧ p.2 = imageDataUrl it ∧
      (p.1 = it.name ∨ p.1 = basenameOf it.name) := by
  induction items generalizing images count with
  | nil =>
    simp only [extractImagesLoop] at hp
    exact Or.inl hp
  | cons it rest ih =>
    simp only [extractImagesLoop] at hp
    by_cases hk : it.kind = ItemKind.image
    · rw [if_pos hk] at hp
      by_cases hc : count ≥ maxImages
      · rw [if_pos hc] at hp
        exact Or.inl hp
      · rw [if_neg hc] at hp
        by_cases hs : it.content.length > maxImageSize
        · rw [if_pos hs] at hp
          rcases ih _ _ hp with h | ⟨it', hm, hrest⟩
          · exact Or.inl h
          · exact Or.inr ⟨it', List.mem_cons_of_mem _ hm, hrest⟩
        · rw [if_neg hs] at hp
          rcases ih _ _ hp with h | ⟨it', hm, hrest⟩
          · rcases mem_registerImage _ _ _ h with h' | h' | h'
            · exact Or.inl h'
            · refine Or.inr ⟨it, List.mem_cons_self it rest, hk, by omega, ?_, ?_⟩
              · rw [h']
              · rw [h']
                exact Or.inl rfl
            · refine Or.inr ⟨it, List.mem_cons_self it rest, hk, by omega, ?_, ?_⟩
              · rw [h']
              · rw [h']
                exact Or.inr rfl
          · exact Or.inr ⟨it', List.mem_cons_of_mem _ hm, hrest⟩
    · rw [if_neg hk] at hp
      rcases ih _ _ hp with h | ⟨it', hm, hrest⟩
      · exact Or.inl h
      · exact Or.inr ⟨it', List.mem_cons_of_mem _ hm, hrest⟩

/-- C2 amended: the ImageMap accepts at most 500 images, and since each
accepted image registers at most two keys (full path and basename) the map has
at most 1000 entries; every entry's value is the data URL of an accepted image
whose byte length is at most 5 MiB, so an oversized image is excluded, never
substituted. -/
theorem image_map_bounds (items : List EpubItem) :
    (extractImagesFromEpub items).length ≤ 2 * maxImages ∧
    ∀ p ∈ extractImagesFromEpub items, ∃ it, it ∈ items ∧ it.kind = ItemKind.image ∧
      it.content.length ≤ maxImageSize ∧ p.2 = imageDataUrl it ∧
      (p.1 = it.name ∨ p.1 = basenameOf it.name) := by
  constructor
  · exact extractImagesLoop_length items [] 0 (by simp) (by simp [maxImages])
  · intro p hp
    rcases extractImagesLoop_mem items [] 0 p hp with h | h
    · exact absurd h (List.not_mem_nil p)
    · exact h

theorem image_map_bounds_witness :
    (extractImagesFromEpub [EpubItem.mk "a/b.png".data ItemKind.image [1, 2, 3]]).length
      ≤ 2 * maxImages ∧
    (∃ it, it ∈ [EpubItem.mk "a/b.png".data ItemKind.image [1, 2, 3]] ∧
      it.kind = ItemKind.image ∧ it.content.length ≤ maxImageSize ∧
      ("a/b.png".data, imageDataUrl (EpubItem.mk "a/b.png".data ItemKind.image [1, 2, 3])).2
        = imageDataUrl it ∧
      (("a/b.png".data,
          imageDataUrl (EpubItem.mk "a/b.png".data ItemKind.image [1, 2, 3])).1 = it.name ∨
       ("a/b.png".data,
          imageDataUrl (EpubItem.mk "a/b.png".data ItemKind.image [1, 2, 3])).1
         = basenameOf it.name)) :=
  ⟨(image_map_bounds [EpubItem.mk "a/b.png".data ItemKind.image [1, 2, 3]]).1,
   (image_map_bounds [EpubItem.mk "a/b.png".data ItemKind.image [1, 2, 3]]).2
     ("a/b.png".data, imageDataUrl (EpubItem.mk "a/b.png".data ItemKind.image [1, 2, 3]))
     (by decide)⟩

theorem splitOnChar_of_not_mem (sep : Char) (l : Str) (h : sep ∉ l) :
    splitOnChar sep l = [l] := by
  induction l with
  | nil => rfl
  | cons c cs ih =>
    have hc : c ≠ sep := fun he => h (by simp [he])
    have hcs : sep ∉ cs := fun hm => h (by simp [hm])
    simp only [splitOnChar, ih hcs]
    simp [hc]

theorem basenameOf_famName (i : Nat) :
    basenameOf (famName i) = List.replicate i 'b' := by
  have hnm : ('/' : Char) ∉ List.replicate i 'b' := by
    intro hm
    have := List.eq_of_mem_replicate hm
    simp at this
  have h1 := splitOnChar_of_not_mem '/' (List.replicate i 'b') hnm
  unfold basenameOf famName
  simp [splitOnChar, h1, List.getLastD]

theorem famName_ne_replicate (i j : Nat) : famName i ≠ List.replicate j 'b' := by
  cases j with
  | zero => simp [famName]
  | succ j => simp [famName, List.replicate_succ]

theorem famName_inj_ne (i j : Nat) (h : i ≠ j) : famName i ≠ famName j := by
  intro he
  have := congrArg List.length he
  simp [famName] at this
  exact h this

theorem replicate_b_inj_ne (i j : Nat) (h : i ≠ j) :
    List.replicate i 'b' ≠ List.replicate j 'b' := by
  intro he
  have := congrArg List.length he
  simp at this
  exact h this

theorem famItems_loop_length (n : Nat) : ∀ (s : Nat) (d : Dict Str Str) (c : Nat),
    c + n ≤ maxImages →
    (∀ p ∈ d, ∃ i, i < s ∧ (p.1 = famName i ∨ p.1 = List.replicate i 'b')) →
    (extractImagesLoop (famItems s n) d c).length = d.length + 2 * n := by
  induction n with
  | zero =>
    intro s d c _ _
    simp [famItems, extractImagesLoop]
  | succ n ih =>
    intro s d c hc hd
    have hfresh1 : dictLookup d (famName s) = none := by
      rw [dictLookup_eq_none_iff]
      intro p hp
      rcases hd p hp with ⟨i, hi, hk | hk⟩
      · rw [hk]
        exact famName_inj_ne i s (by omega)
      · rw [hk]
        intro he
        exact famName_ne_replicate s i he.symm
    have hfresh2 :
        dictLookup (dictInsert d (famName s) (imageDataUrl (EpubItem.mk (famName s) ItemKind.image [])))
          (List.replicate s 'b') = none := by
      rw [dictLookup_eq_none_iff]
      intro p hp
      rcases mem_dictInsert _ _ _ _ hp with hp' | hp'
      · rcases hd p hp' with ⟨i, hi, hk | hk⟩
        · rw [hk]
          exact famName_ne_replicate i s
        · rw [hk]
          exact replicate_b_inj_ne i s (by omega)
      · rw [hp']
        exact famName_ne_replicate s s
    have hreg : registerImage d (EpubItem.mk (famName s) ItemKind.image []) =
        dictInsert (dictInsert d (famName s) (imageDataUrl (EpubItem.mk (famName s) ItemKind.image [])))
          (List.replicate s 'b') (imageDataUrl (EpubItem.mk (famName s) ItemKind.image [])) := by
      unfold registerImage
      rw [if_pos]
      · rw [basenameOf_famName]
      · rw [basenameOf_famName]
        intro he
        exact famName_ne_replicate s s he.symm
    have hlen : (registerImage d (EpubItem.mk (famName s) ItemKind.image [])).length
        = d.length + 2 := by
      rw [hreg, dictInsert_length_fresh _ _ _ hfresh2, dictInsert_length_fresh _ _ _ hfresh1]
    have hinv : ∀ p ∈ registerImage d (EpubItem.mk (famName s) ItemKind.image []),
        ∃ i, i < s + 1 ∧ (p.1 = famName i ∨ p.1 = List.replicate i 'b') := by
      intro p hp
      rcases mem_registerImage p d _ hp with h' | h' | h'
      · rcases hd p h' with ⟨i, hi, hk⟩
        exact ⟨i, by omega, hk⟩
      · exact ⟨s, by omega, Or.inl (by rw [h'])⟩
      · rw [basenameOf_famName] at h'
        exact ⟨s, by omega, Or.inr (by rw [h'])⟩
    have hstep : extractImagesLoop (famItems s (n + 1)) d c =
        extractImagesLoop (famItems (s + 1) n)
          (registerImage d (EpubItem.mk (famName s) ItemKind.image [])) (c + 1) := by
      simp only [famItems, extractImagesLoop]
      rw [if_pos trivial, if_neg (by omega), if_neg (by simp [maxImageSize])]
    rw [hstep, ih (s + 1) _ (c + 1) (by omega) hinv, hlen]
    omega

/-- C2 counterexample: a package with 251 distinct images (all tiny, all
accepted) produces an ImageMap with 502 entries — each accepted image is
registered under both its path and its basename — so the map's size exceeds
the claimed 500 bound. -/
theorem image_map_counterexample :
    ¬ ((extractImagesFromEpub manyImageItems).length ≤ maxImages) := by
  have h := famItems_loop_length 251 0 [] 0 (by simp [maxImages]) (by simp)
  unfold extractImagesFromEpub manyImageItems
  rw [h]
  simp [maxImages]

theorem dictOfSpineAux_lookup [DecidableEq ι] (spine : List ι) :
    ∀ (i : Nat) (m : Dict ι Nat) (id : ι),
    dictLookup (dictOfSpineAux i spine m) id =
      (match lastIdxOf id spine with
       | some j => some (i + j)
       | none => dictLookup m id) := by
  induction spine with
  | nil =>
    intro i m id
    simp [dictOfSpineAux, lastIdxOf]
  | cons x xs ih =>
    intro i m id
    have hstep : dictOfSpineAux i (x :: xs) m = dictOfSpineAux (i + 1) xs (dictInsert m x i) := rfl
    rw [hstep, ih (i + 1) (dictInsert m x i) id]
    cases h : lastIdxOf id xs with
    | some j =>
      simp only [lastIdxOf, h]
      congr 1
      omega
    | none =>
      simp only [lastIdxOf, h]
      by_cases hx : x = id
      · rw [if_pos hx]
        subst hx
        rw [dictLookup_dictInsert_self]
        simp
      · rw [if_neg hx]
        rw [dictLookup_dictInsert_ne _ _ _ _ hx]

theorem spineKey_eq_lastIdx [DecidableEq ι] (spine : List ι) (id : ι) :
    spineKey spine id = (lastIdxOf id spine).getD 999 := by
  unfold spineKey dictOfSpine
  rw [dictOfSpineAux_lookup spine 0 [] id]
  cases h : lastIdxOf id spine with
  | some j => simp
  | none => simp [dictLookup]

theorem lastIdxOf_lt_length [DecidableEq ι] (spine : List ι) (id : ι) (j : Nat)
    (h : lastIdxOf id spine = some j) : j < spine.length := by
  induction spine generalizing j with
  | nil => simp [lastIdxOf] at h
  | cons x xs ih =>
    simp only [lastIdxOf] at h
    cases h2 : lastIdxOf id xs with
    | some j' =>
      rw [h2] at h
      simp only [Option.some.injEq] at h
      have := ih j' h2
      simp only [List.length_cons]
      omega
    | none =>
      rw [h2] at h
      by_cases hx : x = id
      · rw [if_pos hx] at h
        simp only [Option.some.injEq] at h
        simp only [List.length_cons]
        omega
      · rw [if_neg hx] at h
        exact absurd h (by simp)

theorem lastIdxOf_append_singleton [DecidableEq ι] (l : List ι) (x id : ι) :
    lastIdxOf id (l ++ [x]) =
      (if x = id then some l.length else lastIdxOf id l) := by
  induction l with
  | nil =>
    by_cases hx : x = id
    · simp [lastIdxOf, hx]
    · simp [lastIdxOf, hx]
  | cons y ys ih =>
    by_cases hx : x = id
    · simp only [List.cons_append, lastIdxOf, List.append_eq, ih, if_pos hx, List.length_cons]
    · simp only [List.cons_append, lastIdxOf, List.append_eq, ih, if_neg hx]

theorem lastIdxOf_range (n k : Nat) :
    lastIdxOf k (List.range n) = (if k < n then some k else none) := by
  induction n with
  | zero => simp [List.range_zero, lastIdxOf]
  | succ n ih =>
    rw [List.range_succ, lastIdxOf_append_singleton, ih]
    by_cases hk : n = k
    · subst hk
      simp [List.length_range]
    · rw [if_neg hk]
      by_cases hlt : k < n
      · rw [if_pos hlt, if_pos (by omega)]
      · rw [if_neg hlt, if_neg (by omega)]

theorem groupedByKey_nil (key : α → Nat) (i fuel : Nat) :
    groupedByKey key i fuel ([] : List α) = [] := by
  induction fuel generalizing i with
  | zero => rfl
  | succ fuel ih => simp [groupedByKey, ih]

theorem le_key_of_mem_groupedByKey (key : α → Nat) (i fuel : Nat) (l : List α) (x : α)
    (h : x ∈ groupedByKey key i fuel l) : i ≤ key x := by
  induction fuel generalizing i with
  | zero => simp [groupedByKey] at h
  | succ fuel ih =>
    simp only [groupedByKey, List.mem_append] at h
    rcases h with h | h
    · rcases List.mem_filter.mp h with ⟨_, hk⟩
      have := eq_of_beq hk
      omega
    · have := ih (i + 1) h
      omega

theorem insBefore_append (key : α → Nat) (x : α) (as bs : List α)
    (h : ∀ y ∈ as, key y < key x) :
    insBefore key x (as ++ bs) = as ++ insBefore key x bs := by
  induction as with
  | nil => rfl
  | cons a as ih =>
    have ha := h a (List.mem_cons_self a as)
    simp only [List.cons_append, insBefore]
    rw [if_neg (by omega)]
    show a :: insBefore key x (as ++ bs) = a :: (as ++ insBefore key x bs)
    rw [ih fun y hy => h y (List.mem_cons_of_mem a hy)]

theorem groupedByKey_cons_out (key : α → Nat) (x : α) (l : List α) (i fuel : Nat)
    (h : key x < i) : groupedByKey key i fuel (x :: l) = groupedByKey key i fuel l := by
  induction fuel generalizing i with
  | zero => rfl
  | succ fuel ih =>
    simp only [groupedByKey]
    rw [List.filter_cons_of_neg (by simp; omega), ih (i + 1) (by omega)]

theorem insBefore_groupedByKey (key : α → Nat) (x : α) (l : List α) :
    ∀ (fuel i : Nat), i ≤ key x → key x < i + fuel →
    insBefore key x (groupedByKey key i fuel l) = groupedByKey key i fuel (x :: l) := by
  intro fuel
  induction fuel with
  | zero =>
    intro i h1 h2
    omega
  | succ fuel ih =>
    intro i h1 h2
    by_cases hc : key x = i
    · have hfc : List.filter (fun y => key y == i) (x :: l)
          = x :: List.filter (fun y => key y == i) l :=
        List.filter_cons_of_pos (by simp [hc])
      have hout : groupedByKey key (i + 1) fuel (x :: l) = groupedByKey key (i + 1) fuel l :=
        groupedByKey_cons_out key x l (i + 1) fuel (by omega)
      simp only [groupedByKey, hfc, hout]
      cases hf : List.filter (fun y => key y == i) l with
      | cons a as =>
        have hamem : a ∈ List.filter (fun y => key y == i) l := by
          rw [hf]
          exact List.mem_cons_self a as
        have hka : key a = i := eq_of_beq (List.mem_filter.mp hamem).2
        simp only [List.cons_append, insBefore]
        rw [if_pos (by omega)]
        rfl
      | nil =>
        simp only [List.nil_append]
        cases hr : groupedByKey key (i + 1) fuel l with
        | nil => rfl
        | cons z zs =>
          have hz : z ∈ groupedByKey key (i + 1) fuel l := by
            rw [hr]
            exact List.mem_cons_self z zs
          have := le_key_of_mem_groupedByKey key (i + 1) fuel l z hz
          simp only [insBefore]
          rw [if_pos (by omega)]
          rfl
    · have hlt : i < key x := by omega
      have hfc : List.filter (fun y => key y == i) (x :: l)
          = List.filter (fun y => key y == i) l :=
        List.filter_cons_of_neg (by simp; omega)
      simp only [groupedByKey, hfc]
      rw [insBefore_append key x _ _ ?hlt2]
      · rw [ih (i + 1) (by omega) (by omega)]
      case hlt2 =>
        intro y hy
        have := eq_of_beq (List.mem_filter.mp hy).2
        omega

theorem stableSortByKey_eq_groupedByKey (key : α → Nat) (l : List α) (N : Nat)
    (h : ∀ x ∈ l, key x < N) : stableSortByKey key l = groupedByKey key 0 N l := by
  induction l with
  | nil => rw [groupedByKey_nil]; rfl
  | cons x l ih =>
    have hx := h x (List.mem_cons_self x l)
    have hstep : stableSortByKey key (x :: l) = insBefore key x (stableSortByKey key l) := rfl
    rw [hstep, ih fun y hy => h y (List.mem_cons_of_mem x hy)]
    exact insBefore_groupedByKey key x l N 0 (by omega) (by omega)

theorem groupedByKey_add (key : α → Nat) (l : List α) :
    ∀ (a : Nat) (i b : Nat), groupedByKey key i (a + b) l
      = groupedByKey key i a l ++ groupedByKey key (i + a) b l := by
  intro a
  induction a with
  | zero =>
    intro i b
    simp [groupedByKey, Nat.zero_add]
  | succ a ih =>
    intro i b
    have h1 : a + 1 + b = (a + b) + 1 := by omega
    rw [h1]
    simp only [groupedByKey]
    rw [ih (i + 1) b]
    have h2 : i + 1 + a = i + (a + 1) := by omega
    rw [h2, List.append_assoc]

theorem groupedByKey_eq_nil_of_lt (key : α → Nat) (l : List α) :
    ∀ (fuel i : Nat), (∀ x ∈ l, key x < i) → groupedByKey key i fuel l = [] := by
  intro fuel
  induction fuel with
  | zero => intro i _; rfl
  | succ fuel ih =>
    intro i h
    simp only [groupedByKey]
    rw [List.filter_eq_nil_iff.mpr, ih (i + 1) fun x hx => by have := h x hx; omega]
    · rfl
    · intro x hx
      have := h x hx
      simp
      omega

theorem groupedByKey_single (key : α → Nat) (l : List α) (c : Nat) :
    ∀ (fuel i : Nat), (∀ x ∈ l, key x < i ∨ key x = c) → i ≤ c → c < i + fuel →
    groupedByKey key i fuel l = l.filter (fun x => key x == c) := by
  intro fuel
  induction fuel with
  | zero =>
    intro i _ h1 h2
    omega
  | succ fuel ih =>
    intro i hall h1 h2
    by_cases hc : c = i
    · subst hc
      simp only [groupedByKey]
      rw [groupedByKey_eq_nil_of_lt key l fuel (c + 1) ?hlt, List.append_nil]
      case hlt =>
        intro x hx
        rcases hall x hx with h | h <;> omega
    · have hlt : i < c := by omega
      simp only [groupedByKey]
      rw [List.filter_eq_nil_iff.mpr ?hnil, List.nil_append]
      · exact ih (i + 1) (fun x hx => by rcases hall x hx with h | h <;> omega) (by omega) (by omega)
      case hnil =>
        intro x hx
        rcases hall x hx with h | h <;> simp <;> omega

theorem groupedByKey_eq_groupedRanks [DecidableEq ι] (spine : List ι)
    (docs : List (DocItem ι)) (hsp : spine.length ≤ 999) :
    ∀ (fuel i : Nat), i + fuel ≤ spine.length →
    groupedByKey (fun d => spineKey spine d.id) i fuel docs = groupedRanks spine docs i fuel := by
  intro fuel
  induction fuel with
  | zero => intro i _; rfl
  | succ fuel ih =>
    intro i hif
    simp only [groupedByKey, groupedRanks]
    congr 1
    · apply List.filter_congr
      intro d _
      rw [spineKey_eq_lastIdx]
      cases h : lastIdxOf d.id spine with
      | some j =>
        simp only [Option.getD_some]
        by_cases hj : j = i <;> simp [hj]
      | none =>
        have hi : i < 999 := by omega
        simp only [Option.getD_none]
        have h9 : ((999 : Nat) == i) = false := by
          simp
          omega
        simp [h9]
    · exact ih (i + 1) (by omega)

/-- C1 amended: when the package declares a non-empty linear reading order of
at most 999 entries, the assembled order is exactly the claim's: fragments
present in the order appear grouped by ascending declared rank (encounter
order inside a group), and every fragment absent from the order appears after
all of them, in encounter order.  The bound is forced by the source's fixed
sentinel `spine_order.get(id, 999)`: an absent item sorts with rank exactly
999, not "larger than any declared rank". -/
theorem spine_order_amended [DecidableEq ι] (spine : List ι) (docs : List (DocItem ι))
    (h1 : spine ≠ []) (h2 : spine.length ≤ 999) :
    sortDocuments spine docs = orderedBySpineSpec spine docs := by
  unfold sortDocuments orderedBySpineSpec
  rw [if_neg h1]
  have hN : ∀ d ∈ docs, (fun d : DocItem ι => spineKey spine d.id) d < 1000 := by
    intro d _
    show spineKey spine d.id < 1000
    rw [spineKey_eq_lastIdx]
    cases h : lastIdxOf d.id spine with
    | none => simp
    | some j =>
      have := lastIdxOf_lt_length spine d.id j h
      simp only [Option.getD_some]
      omega
  rw [stableSortByKey_eq_groupedByKey _ _ 1000 hN]
  have hs : (1000 : Nat) = spine.length + (1000 - spine.length) := by omega
  rw [hs, groupedByKey_add]
  congr 1
  · exact groupedByKey_eq_groupedRanks spine docs h2 spine.length 0 (by omega)
  · have hz : (0 : Nat) + spine.length = spine.length := by omega
    rw [hz]
    rw [groupedByKey_single (fun d : DocItem ι => spineKey spine d.id) docs 999
        (1000 - spine.length) spine.length ?hall h2 (by omega)]
    · apply List.filter_congr
      intro d _
      rw [spineKey_eq_lastIdx]
      cases h : lastIdxOf d.id spine with
      | none => simp
      | some j =>
        have := lastIdxOf_lt_length spine d.id j h
        simp only [Option.getD_some]
        have hj : j ≠ 999 := by omega
        simp [hj]
    case hall =>
      intro x _
      show spineKey spine x.id < spine.length ∨ spineKey spine x.id = 999
      rw [spineKey_eq_lastIdx]
      cases h : lastIdxOf x.id spine with
      | none =>
        right
        simp
      | some j =>
        left
        have := lastIdxOf_lt_length spine x.id j h
        simp only [Option.getD_some]
        omega

theorem spine_order_amended_witness :
    ([5] : List Nat) ≠ [] ∧ ([5] : List Nat).length ≤ 999 ∧
    sortDocuments [5] [DocItem.mk 7 (some []), DocItem.mk 5 (some [])] =
      orderedBySpineSpec [5] [DocItem.mk 7 (some []), DocItem.mk 5 (some [])] :=
  ⟨by decide, by decide,
   spine_order_amended [5] [DocItem.mk 7 (some []), DocItem.mk 5 (some [])]
     (by decide) (by decide)⟩

/-- C1 counterexample: with a declared reading order of 1000 entries (ids
0..999) the sentinel rank 999 collides with the declared rank of id 999: the
document with id 1000 is absent from the order, yet the stable sort keeps it
*before* the declared document with id 999, contradicting "every absent item
appears after all declared items" (and "as if its rank were larger than any
declared rank"). -/
theorem spine_order_counterexample :
    sortDocuments (List.range 1000) [DocItem.mk 1000 (some []), DocItem.mk 999 (some [])] =
      [DocItem.mk 1000 (some []), DocItem.mk 999 (some [])] ∧
    (1000 : Nat) ∉ List.range 1000 ∧ (999 : Nat) ∈ List.range 1000 := by
  have k1 : (fun d : DocItem Nat => spineKey (List.range 1000) d.id)
      (DocItem.mk 1000 (some [])) = 999 := by
    show spineKey (List.range 1000) 1000 = 999
    rw [spineKey_eq_lastIdx, lastIdxOf_range]
    simp
  have k2 : (fun d : DocItem Nat => spineKey (List.range 1000) d.id)
      (DocItem.mk 999 (some [])) = 999 := by
    show spineKey (List.range 1000) 999 = 999
    rw [spineKey_eq_lastIdx, lastIdxOf_range]
    simp
  refine ⟨?_, by simp [List.mem_range], by simp [List.mem_range]⟩
  unfold sortDocuments
  rw [if_neg (by simp [List.range_eq_nil])]
  unfold stableSortByKey
  rw [List.foldr_cons, List.foldr_cons, List.foldr_nil]
  rw [show insBefore (fun d : DocItem Nat => spineKey (List.range 1000) d.id)
      (DocItem.mk 999 (some [])) [] = [DocItem.mk 999 (some [])] from rfl]
  have hif : insBefore (fun d : DocItem Nat => spineKey (List.range 1000) d.id)
      (DocItem.mk 1000 (some [])) [DocItem.mk 999 (some [])]
      = if (fun d : DocItem Nat => spineKey (List.range 1000) d.id) (DocItem.mk 1000 (some []))
            ≤ (fun d : DocItem Nat => spineKey (List.range 1000) d.id) (DocItem.mk 999 (some []))
        then [DocItem.mk 1000 (some []), DocItem.mk 999 (some [])]
        else DocItem.mk 999 (some []) ::
          insBefore (fun d : DocItem Nat => spineKey (List.range 1000) d.id)
            (DocItem.mk 1000 (some [])) [] := rfl
  rw [hif, k1, k2, if_pos (Nat.le_refl 999)]
